import Mathlib

set_option maxRecDepth 4000

/-!
Verification of the value-quantization subsystem of the OWON VDS6104
oscilloscope driver.

Embedding conventions:
* Python floats are modelled as `ℚ`.  All concrete values appearing in the
  repository (step values `mantissa * 10^exponent`, padding constants,
  ADC calibration) are exact decimals, and the source deliberately builds
  step values from decimal literals (`'{m}e{e}'` then `float(...)`), so the
  exact-decimal semantics of `ℚ` is the intended value semantics.
* Functions that can raise a Python exception (`ValueError` from
  `list.index` / `min([])`, implicit `None` fall-through) return `Option`.
* The scientific-notation decomposition `'{0:e}'.format(x)` (leading digit
  and decimal exponent) is modelled exactly: for `x > 0` the exponent is the
  unique `e` with `10^e ≤ x < 10^(e+1)` and the digit is `⌊x / 10^e⌋`.
  (Python's `%e` rounds to six decimal places, which can bump the leading
  digit for values within 5e-7 relative distance of a power of ten; no value
  in the driver's domain is of that form.)
-/

/-- `log10go fuel n` is the number of times `n` can be integer-divided by 10
before falling below 10; with `fuel ≥ n` it is `⌊log₁₀ n⌋` for `n ≥ 1`. -/
def log10go : ℕ → ℕ → ℕ
  | 0, _ => 0
  | fuel + 1, n => if n < 10 then 0 else log10go fuel (n / 10) + 1

/-- `⌊log₁₀ n⌋` for `n ≥ 1` (and `0` for `n = 0`). -/
def natLog10 (n : ℕ) : ℕ :=
  log10go n n

/-- `upExpGo fuel a b` is the least `f` with `b ≤ a * 10^f`, provided
`fuel` is large enough and `a ≥ 1`. -/
def upExpGo : ℕ → ℕ → ℕ → ℕ
  | 0, _, _ => 0
  | fuel + 1, a, b => if b ≤ a then 0 else upExpGo fuel (10 * a) b + 1

/-- The decimal exponent of `q`: the integer printed after `e` by Python's
`'{0:e}'.format(q)`, i.e. the unique `e` with `10^e ≤ q < 10^(e+1)` for
`q > 0` (and `0` for `q = 0`; negative `q` never reaches this decomposition
in the driver because `int('-')` raises `ValueError` first). -/
def sciExp (q : ℚ) : ℤ :=
  let a := q.num.natAbs
  let b := q.den
  if a = 0 then 0
  else if b ≤ a then (natLog10 (a / b) : ℤ)
  else -(upExpGo b a b : ℤ)

/-- The leading significant decimal digit of `q`: the first character of
`'{0:e}'.format(q)` as an integer (for `q ≥ 0`). -/
def sciDigit (q : ℚ) : ℕ :=
  (Int.toNat ⌊q / (10 : ℚ) ^ sciExp q⌋)

/-- Fuel bound for the `while value <= MAX_VAL` loop of
`calc_valid_inputs` (scale.py:39-49).  The loop multiplies the running
value by 10 every `len(MANTISSA)` iterations, so for every range the
driver can express the iteration count is far below this bound; the fuel
only makes the recursion structural. -/
def calcFuel : ℕ := 10000

/-- The `while` loop of `calc_valid_inputs` (scale.py:39-49): append the
current value, advance the mantissa index circularly, bump the exponent on
wrap-around, and rebuild `value = float('{mantissa}e{exponent}')` — which
in exact-decimal semantics is `mantissa * 10^exponent`. -/
def calcLoop (MANTISSA : List ℕ) (MAX_VAL : ℚ) : ℕ → ℕ → ℤ → ℚ → List ℚ
  | 0, _, _, _ => []
  | fuel + 1, idx_mantissa, exponent, value =>
    if value ≤ MAX_VAL then
      let idx' := (idx_mantissa + 1) % MANTISSA.length
      let exponent' := if idx' = 0 then exponent + 1 else exponent
      let value' := ((MANTISSA.getD idx' 0 : ℚ)) * (10 : ℚ) ^ exponent'
      value :: calcLoop MANTISSA MAX_VAL fuel idx' exponent' value'
    else []

/-- `calc_valid_inputs` (scale.py:2-50).  `MANTISSA.index(...)` raises
`ValueError` when the leading digit of `MIN_VAL` is absent (also when
`MIN_VAL = 0`, whose leading digit is `0`); for negative `MIN_VAL` the
leading character of `'{0:e}'.format(MIN_VAL)` is `'-'` and `int('-')`
raises `ValueError` before the list is consulted.  Both are `none`. -/
def calc_valid_inputs (MIN_VAL MAX_VAL : ℚ) (MANTISSA : List ℕ) : Option (List ℚ) :=
  if MIN_VAL < 0 then none
  else if sciDigit MIN_VAL ∈ MANTISSA then
    some (calcLoop MANTISSA MAX_VAL calcFuel
      (MANTISSA.indexOf (sciDigit MIN_VAL)) (sciExp MIN_VAL) MIN_VAL)
  else none

/-- Python float equality `==`, on `ℚ` in canonical form: two rationals are
equal iff their normalized numerators and denominators agree.  (A boolean
test on the `num`/`den` fields rather than the derived `DecidableEq ℚ`,
which the elaborator cannot reduce on large denominators.) -/
def ratEqb (a b : ℚ) : Bool :=
  a.num == b.num && a.den == b.den

/-- Iterations 2.. of the `for value in possible_values` loop of
`get_closest_value` (scale.py:75-84), carrying `min_delta` and
`lowest_value`.  The update (`delta < min_delta`, strict) happens before
the exact-match test, exactly as in the source. -/
def closestGo (input_value : ℚ) : List ℚ → ℚ → ℚ → ℚ
  | [], _, lowest_value => lowest_value
  | value :: rest, min_delta, lowest_value =>
    let delta := |value - input_value|
    let min_delta' := if delta < min_delta then delta else min_delta
    let lowest_value' := if delta < min_delta then value else lowest_value
    if ratEqb delta 0 then value
    else closestGo input_value rest min_delta' lowest_value'

/-- The whole resolver loop of `get_closest_value` (scale.py:73-85).
`lowest_value` starts at `0`; on the first iteration `min_delta` is
initialized to the first delta, so the strict `delta < min_delta` test is
false and `lowest_value` is left at `0`.  An empty list returns the
initial `lowest_value = 0`. -/
def closestLoop (input_value : ℚ) : List ℚ → ℚ
  | [] => 0
  | value :: rest =>
    let delta := |value - input_value|
    if ratEqb delta 0 then value
    else closestGo input_value rest delta 0

/-- `get_closest_value` (scale.py:55-85): generate the step sequence, then
scan it for the minimum-delta member. -/
def get_closest_value (input_value MIN MAX : ℚ) (MANTISSA : List ℕ) : Option ℚ :=
  (calc_valid_inputs MIN MAX MANTISSA).map (closestLoop input_value)

/-- `validate_input` (scale.py:87-104): `min(vals_valid, key=|x - target|)`.
Python's `min` keeps the first element attaining the minimal key and raises
`ValueError` on an empty sequence. -/
def validate_input (target : ℚ) (vals_valid : List ℚ) : Option ℚ :=
  match vals_valid with
  | [] => none
  | v :: rest =>
    some (rest.foldl (fun acc x => if |x - target| < |acc - target| then x else acc) v)

/-- Python `max` over a list; `none` on the empty list (`ValueError`). -/
def listMax : List ℚ → Option ℚ
  | [] => none
  | v :: rest => some (rest.foldl max v)

/-- `get_val_ceil` (scale.py:127-154).  The source's `else` branch (return
the next larger element) is dead code: `target <= validated` and
`target > validated` are exhaustive, and when `target > validated` but
`target <= max(vals_valid)` no branch returns, so Python falls off the end
and returns `None` (modelled as `none`). -/
def get_val_ceil (target validated : ℚ) (vals_valid : List ℚ) : Option ℚ :=
  if target ≤ validated then some validated
  else if validated < target then
    match listMax vals_valid with
    | none => none
    | some mx => if mx < target then some validated else none
  else
    vals_valid.get? (vals_valid.indexOf validated + 1)

/-- The sample-decoding loop of `capture` (owon_vds6104.py:801-804), with
the running index made explicit: per raw code `c` at index `i` it emits
time `scale_time * i` and voltage `(c / 6400 - offset_divisons) * scale_voltage`. -/
def decodeGo (scale_voltage offset_divisons scale_time : ℚ) :
    ℕ → List ℤ → List ℚ × List ℚ
  | _, [] => ([], [])
  | index, c :: rest =>
    let tail := decodeGo scale_voltage offset_divisons scale_time (index + 1) rest
    (scale_time * (index : ℚ) :: tail.1,
     ((c : ℚ) / 6400 - offset_divisons) * scale_voltage :: tail.2)

/-- The waveform decoder of `capture` (owon_vds6104.py:791-804): raw ADC
codes to parallel `(time, voltage)` lists. -/
def decode (raw : List ℤ) (scale_voltage offset_divisons scale_time : ℚ) :
    List ℚ × List ℚ :=
  decodeGo scale_voltage offset_divisons scale_time 0 raw

/-- The fixed zero-padding set `time_dec` (owon_vds6104.py:150-153,
test.py:24-27). -/
def time_dec : List ℚ :=
  [1 / 10 ^ 9, 2 / 10 ^ 9, 5 / 10 ^ 9,
   1 / 10 ^ 6, 2 / 10 ^ 6, 5 / 10 ^ 6,
   1 / 10 ^ 3, 2 / 10 ^ 3, 5 / 10 ^ 3,
   1, 2, 5]

/-- SI prefix for a power-of-1000 exponent `k` in the driver's domain. -/
def siPrefixFor (k : ℤ) : String :=
  if k = -3 then "n"
  else if k = -2 then "u"
  else if k = -1 then "m"
  else if k = 1 then "k"
  else if k = 2 then "M"
  else ""

/-- Strip trailing `'0'` characters. -/
def dropTrailingZeros (cs : List Char) : List Char :=
  (cs.reverse.dropWhile (fun c => c = '0')).reverse

/-- Render a nonnegative rational with exactly one decimal digit, keeping
the trailing zero: `1 ↦ "1.0"`. -/
def renderFixed1 (q : ℚ) : String :=
  Nat.repr (Int.toNat ⌊q⌋) ++ "." ++ Nat.repr (Int.toNat (⌊q * 10⌋ - 10 * ⌊q⌋))

/-- Render a nonnegative rational with default precision (up to four
fractional digits), stripping unnecessary trailing zeros: `200 ↦ "200"`. -/
def renderDefault (q : ℚ) : String :=
  let ip := Int.toNat ⌊q⌋
  let fr := Int.toNat ⌊(q - (ip : ℚ)) * 10 ^ 4⌋
  if fr = 0 then Nat.repr ip
  else
    let ds := Nat.repr fr
    let padded := List.replicate (4 - ds.length) '0' ++ ds.data
    Nat.repr ip ++ "." ++ String.mk (dropTrailingZeros padded)

/-- Modelled from the spec: `quantiphy.Quantity(...).render(...)`, the
third-party formatting step used by `timebase.setter`
(owon_vds6104.py:156-161) and `test.validate_time` (test.py:31-36), is not
part of this repository's sources.  Following spec §4.3 it decomposes a
positive value into `mantissa * 1000^k`, renders the mantissa either with
exactly one kept decimal digit (`strip_zeros=False, prec=1`) or with
default precision stripping trailing zeros, and joins mantissa, SI prefix
and unit with a single space before the prefixed unit. -/
def quantityRender (value : ℚ) (unit : String) (stripZeros : Bool) : String :=
  if value ≤ 0 then "0 " ++ unit
  else
    let k := Int.fdiv (sciExp value) 3
    let mantissa := value * (1000 : ℚ) ^ (-k)
    let numeral := if stripZeros then renderDefault mantissa else renderFixed1 mantissa
    numeral ++ " " ++ siPrefixFor k ++ unit

/-- The whitespace normalization of `timebase.setter`
(owon_vds6104.py:162-163): `split(" ")` then `"".join(...)`, i.e. delete
every space character. -/
def removeSpaces (s : String) : String :=
  String.mk (s.data.filter (fun c => ¬ c = ' '))

/-- The rendering tail shared by `timebase.setter` (owon_vds6104.py:156-163)
and `test.validate_time` (test.py:31-38), parameterized by the unit: pick
the one-decimal zero-padded form for members of `time_dec`, the default
zero-stripped form otherwise, then delete the space between numeral and
prefixed unit. -/
def renderToken (value : ℚ) (unit : String) : String :=
  let s := if time_dec.any (fun t => ratEqb value t) then quantityRender value unit false
           else quantityRender value unit true
  removeSpaces s

/-- `validate_time` (test.py:11-39): resolve the requested time against the
timebase domain `(1e-9, 100, (1,2,5))`, then render it with unit `s`. -/
def validate_time (input_time : ℚ) : Option String :=
  (get_closest_value input_time (1 / 10 ^ 9) 100 [1, 2, 5]).map
    (fun t => renderToken t "s")

/-- `ratEqb` is equality. -/
theorem ratEqb_iff (a b : ℚ) : ratEqb a b = true ↔ a = b := by
  constructor
  · intro h
    simp only [ratEqb, Bool.and_eq_true, beq_iff_eq] at h
    exact Rat.ext h.1 h.2
  · intro h
    subst h
    simp [ratEqb]

theorem log10go_spec : ∀ fuel n : ℕ, n ≤ fuel → 1 ≤ n →
    10 ^ log10go fuel n ≤ n ∧ n < 10 ^ (log10go fuel n + 1) := by
  intro fuel
  induction fuel with
  | zero => intro n hn h1; omega
  | succ fuel ih =>
    intro n hn h1
    rw [log10go]
    split_ifs with h
    · simpa using ⟨h1, h⟩
    · push_neg at h
      have hdivlt : n / 10 < n := Nat.div_lt_self (by omega) (by omega)
      have hdiv1 : 1 ≤ n / 10 := Nat.one_le_div_iff (by omega) |>.mpr h
      obtain ⟨ih1, ih2⟩ := ih (n / 10) (by omega) hdiv1
      have hmod := Nat.div_add_mod n 10
      have hmodlt : n % 10 < 10 := Nat.mod_lt _ (by omega)
      constructor
      · have : 10 ^ log10go fuel (n / 10) * 10 ≤ (n / 10) * 10 :=
          Nat.mul_le_mul_right 10 ih1
        calc 10 ^ (log10go fuel (n / 10) + 1)
            = 10 ^ log10go fuel (n / 10) * 10 := by ring
          _ ≤ (n / 10) * 10 := this
          _ ≤ n := by omega
      · have h2 : n / 10 + 1 ≤ 10 ^ (log10go fuel (n / 10) + 1) := ih2
        have : (n / 10 + 1) * 10 ≤ 10 ^ (log10go fuel (n / 10) + 1) * 10 :=
          Nat.mul_le_mul_right 10 h2
        calc n < (n / 10 + 1) * 10 := by omega
          _ ≤ 10 ^ (log10go fuel (n / 10) + 1) * 10 := this
          _ = 10 ^ (log10go fuel (n / 10) + 1 + 1) := by ring

theorem natLog10_spec (n : ℕ) (h1 : 1 ≤ n) :
    10 ^ natLog10 n ≤ n ∧ n < 10 ^ (natLog10 n + 1) :=
  log10go_spec n n le_rfl h1

theorem upExpGo_spec : ∀ fuel a b : ℕ, 1 ≤ a → b ≤ a * 10 ^ fuel →
    b ≤ a * 10 ^ upExpGo fuel a b ∧
      (0 < upExpGo fuel a b → a * 10 ^ (upExpGo fuel a b - 1) < b) := by
  intro fuel
  induction fuel with
  | zero =>
    intro a b ha hb
    rw [upExpGo]
    exact ⟨by simpa using hb, by omega⟩
  | succ fuel ih =>
    intro a b ha hb
    rw [upExpGo]
    split_ifs with h
    · exact ⟨by simpa using h, by omega⟩
    · push_neg at h
      have hb' : b ≤ 10 * a * 10 ^ fuel := by
        calc b ≤ a * 10 ^ (fuel + 1) := hb
          _ = 10 * a * 10 ^ fuel := by ring
      obtain ⟨ih1, ih2⟩ := ih (10 * a) b (by omega) hb'
      refine ⟨?_, fun _ => ?_⟩
      · calc b ≤ 10 * a * 10 ^ upExpGo fuel (10 * a) b := ih1
          _ = a * 10 ^ (upExpGo fuel (10 * a) b + 1) := by ring
      · rcases Nat.eq_zero_or_pos (upExpGo fuel (10 * a) b) with hz | hpos
        · simpa [hz] using h
        · have hlt := ih2 hpos
          obtain ⟨k, hk⟩ : ∃ k, upExpGo fuel (10 * a) b = k + 1 :=
            ⟨upExpGo fuel (10 * a) b - 1, by omega⟩
          rw [hk] at hlt ⊢
          simp only [Nat.add_sub_cancel] at hlt ⊢
          calc a * 10 ^ (k + 1) = 10 * a * 10 ^ k := by rw [pow_succ]; ring
            _ < b := hlt

theorem sciExp_spec (q : ℚ) (hq : 0 < q) :
    (10 : ℚ) ^ sciExp q ≤ q ∧ q < (10 : ℚ) ^ (sciExp q + 1) := by
  have hnum : 0 < q.num := Rat.num_pos.mpr hq
  have hb : 0 < q.den := q.pos
  have ha : (q.num.natAbs : ℤ) = q.num := Int.natAbs_of_nonneg hnum.le
  have ha1 : 1 ≤ q.num.natAbs := by omega
  have hbQ : (0 : ℚ) < (q.den : ℚ) := by exact_mod_cast hb
  have hQ : q = (q.num.natAbs : ℚ) / (q.den : ℚ) := by
    have h1 : ((q.num.natAbs : ℕ) : ℚ) = ((q.num : ℤ) : ℚ) := by
      rw [Int.cast_natAbs, abs_of_nonneg hnum.le]
    rw [h1, Rat.num_div_den]
  by_cases hba : q.den ≤ q.num.natAbs
  · have hE : sciExp q = (natLog10 (q.num.natAbs / q.den) : ℤ) := by
      simp only [sciExp]
      rw [if_neg (by omega : ¬ q.num.natAbs = 0), if_pos hba]
    obtain ⟨h1, h2⟩ := natLog10_spec (q.num.natAbs / q.den) ((Nat.one_le_div_iff hb).mpr hba)
    have hn1 : 10 ^ natLog10 (q.num.natAbs / q.den) * q.den ≤ q.num.natAbs :=
      (Nat.le_div_iff_mul_le hb).mp h1
    have hn2 : q.num.natAbs < 10 ^ (natLog10 (q.num.natAbs / q.den) + 1) * q.den :=
      (Nat.div_lt_iff_lt_mul hb).mp h2
    generalize natLog10 (q.num.natAbs / q.den) = L at hE hn1 hn2
    constructor
    · rw [hE, zpow_natCast, hQ, le_div_iff₀ hbQ]
      exact_mod_cast hn1
    · rw [hE, hQ]
      have hc : ((L : ℤ) + 1) = ((L + 1 : ℕ) : ℤ) := by push_cast; ring
      rw [hc, zpow_natCast, div_lt_iff₀ hbQ]
      exact_mod_cast hn2
  · push_neg at hba
    have hfuel : q.den ≤ q.num.natAbs * 10 ^ q.den := by
      have h10 : q.den < 10 ^ q.den := Nat.lt_pow_self (by norm_num) q.den
      have hle : 10 ^ q.den ≤ q.num.natAbs * 10 ^ q.den :=
        Nat.le_mul_of_pos_left _ (by omega)
      omega
    obtain ⟨hf1, hf2⟩ := upExpGo_spec q.den q.num.natAbs q.den ha1 hfuel
    have hfpos : 0 < upExpGo q.den q.num.natAbs q.den := by
      rcases Nat.eq_zero_or_pos (upExpGo q.den q.num.natAbs q.den) with hz | hp
      · rw [hz] at hf1; simp at hf1; omega
      · exact hp
    have hf2' := hf2 hfpos
    have hE : sciExp q = -(upExpGo q.den q.num.natAbs q.den : ℤ) := by
      simp only [sciExp]
      rw [if_neg (by omega : ¬ q.num.natAbs = 0), if_neg (by omega)]
    generalize upExpGo q.den q.num.natAbs q.den = F at hE hf1 hf2' hfpos
    constructor
    · rw [hE, hQ, zpow_neg, zpow_natCast, inv_eq_one_div,
        div_le_div_iff₀ (by positivity) hbQ]
      have hc : (q.den : ℚ) ≤ (q.num.natAbs : ℚ) * (10 : ℚ) ^ F := by exact_mod_cast hf1
      linarith
    · have hrw : (-(F : ℤ) + 1) = -((F - 1 : ℕ) : ℤ) := by omega
      rw [hE, hQ, hrw, zpow_neg, zpow_natCast, inv_eq_one_div,
        div_lt_div_iff₀ hbQ (by positivity)]
      have hc : (q.num.natAbs : ℚ) * (10 : ℚ) ^ ((F - 1 : ℕ)) < (q.den : ℚ) := by
        exact_mod_cast hf2'
      linarith

theorem sciDigit_spec (q : ℚ) (hq : 0 < q) :
    1 ≤ sciDigit q ∧ sciDigit q ≤ 9 ∧
      (sciDigit q : ℚ) * (10 : ℚ) ^ sciExp q ≤ q ∧
      q < ((sciDigit q : ℚ) + 1) * (10 : ℚ) ^ sciExp q := by
  obtain ⟨h1, h2⟩ := sciExp_spec q hq
  have hp : (0 : ℚ) < (10 : ℚ) ^ sciExp q := by positivity
  have ht1 : 1 ≤ q / (10 : ℚ) ^ sciExp q := (le_div_iff₀ hp).mpr (by simpa using h1)
  have ht10 : q / (10 : ℚ) ^ sciExp q < 10 := by
    rw [div_lt_iff₀ hp]
    have hz : (10 : ℚ) ^ (sciExp q + 1) = (10 : ℚ) ^ sciExp q * 10 :=
      zpow_add_one₀ (by norm_num) _
    linarith [hz ▸ h2]
  have hf1 : 1 ≤ ⌊q / (10 : ℚ) ^ sciExp q⌋ := Int.le_floor.mpr (by exact_mod_cast ht1)
  have hf10 : ⌊q / (10 : ℚ) ^ sciExp q⌋ < 10 := Int.floor_lt.mpr (by exact_mod_cast ht10)
  have hcast : ((sciDigit q : ℕ) : ℚ) = ((⌊q / (10 : ℚ) ^ sciExp q⌋ : ℤ) : ℚ) := by
    simp only [sciDigit]
    have hnn : ((⌊q / (10 : ℚ) ^ sciExp q⌋.toNat : ℤ)) = ⌊q / (10 : ℚ) ^ sciExp q⌋ :=
      Int.toNat_of_nonneg (by omega)
    exact_mod_cast hnn
  have hlow : (⌊q / (10 : ℚ) ^ sciExp q⌋ : ℚ) ≤ q / (10 : ℚ) ^ sciExp q := Int.floor_le _
  have hhigh : q / (10 : ℚ) ^ sciExp q < (⌊q / (10 : ℚ) ^ sciExp q⌋ : ℚ) + 1 :=
    Int.lt_floor_add_one _
  refine ⟨?_, ?_, ?_, ?_⟩
  · simp only [sciDigit]; omega
  · simp only [sciDigit]; omega
  · rw [hcast, ← le_div_iff₀ hp]
    exact hlow
  · rw [hcast, ← div_lt_iff₀ hp]
    exact hhigh

/-- Element of a list by `getD` at an in-range index is a member. -/
theorem getD_mem (l : List ℕ) (i : ℕ) (h : i < l.length) : l.getD i 0 ∈ l := by
  rw [List.getD_eq_get l 0 h]
  exact List.get_mem l i h

/-- Every value the generator loop appends passed the `value <= MAX_VAL`
guard. -/
theorem calcLoop_le_max (MANTISSA : List ℕ) (MAX_VAL : ℚ) :
    ∀ fuel idx expo value, ∀ x ∈ calcLoop MANTISSA MAX_VAL fuel idx expo value,
      x ≤ MAX_VAL := by
  intro fuel
  induction fuel with
  | zero => intro idx expo value x hx; simp [calcLoop] at hx
  | succ fuel ih =>
    intro idx expo value x hx
    by_cases h : value ≤ MAX_VAL
    · simp only [calcLoop, if_pos h, List.mem_cons] at hx
      rcases hx with rfl | hx'
      · exact h
      · exact ih _ _ _ x hx'
    · simp only [calcLoop, if_neg h, List.not_mem_nil] at hx

/-- Every element of the generator loop output is the initial `value` or a
rebuilt `mantissa * 10^exponent` with the mantissa drawn from the list. -/
theorem calcLoop_decomp (MANTISSA : List ℕ) (MAX_VAL : ℚ)
    (hL : 0 < MANTISSA.length) :
    ∀ fuel idx expo value, ∀ x ∈ calcLoop MANTISSA MAX_VAL fuel idx expo value,
      x = value ∨ ∃ m ∈ MANTISSA, ∃ e : ℤ, x = (m : ℚ) * (10 : ℚ) ^ e := by
  intro fuel
  induction fuel with
  | zero => intro idx expo value x hx; simp [calcLoop] at hx
  | succ fuel ih =>
    intro idx expo value x hx
    by_cases h : value ≤ MAX_VAL
    · simp only [calcLoop, if_pos h, List.mem_cons] at hx
      rcases hx with rfl | hx'
      · exact Or.inl rfl
      · rcases ih _ _ _ x hx' with rfl | hdec
        · refine Or.inr ⟨MANTISSA.getD ((idx + 1) % MANTISSA.length) 0, ?_, _, rfl⟩
          exact getD_mem MANTISSA _ (Nat.mod_lt _ hL)
        · exact Or.inr hdec
    · simp only [calcLoop, if_neg h, List.not_mem_nil] at hx

/-- All loop outputs are positive when the mantissas are positive and the
starting value is. -/
theorem calcLoop_pos (MANTISSA : List ℕ) (MAX_VAL : ℚ)
    (hL : 0 < MANTISSA.length) (hm : ∀ m ∈ MANTISSA, 1 ≤ m) :
    ∀ fuel idx expo value, 0 < value →
      ∀ x ∈ calcLoop MANTISSA MAX_VAL fuel idx expo value, 0 < x := by
  intro fuel
  induction fuel with
  | zero => intro idx expo value hv x hx; simp [calcLoop] at hx
  | succ fuel ih =>
    intro idx expo value hv x hx
    by_cases h : value ≤ MAX_VAL
    · simp only [calcLoop, if_pos h, List.mem_cons] at hx
      rcases hx with rfl | hx'
      · exact hv
      · refine ih _ _ _ ?_ x hx'
        have h1 : 1 ≤ MANTISSA.getD ((idx + 1) % MANTISSA.length) 0 :=
          hm _ (getD_mem MANTISSA _ (Nat.mod_lt _ hL))
        have h1Q : (1 : ℚ) ≤ (MANTISSA.getD ((idx + 1) % MANTISSA.length) 0 : ℚ) := by
          exact_mod_cast h1
        have hpe : (0 : ℚ) <
            (10 : ℚ) ^ (if (idx + 1) % MANTISSA.length = 0 then expo + 1 else expo) := by
          positivity
        nlinarith
    · simp only [calcLoop, if_neg h, List.not_mem_nil] at hx

/-- The loop output is empty or starts with the initial `value`. -/
theorem calcLoop_head (MANTISSA : List ℕ) (MAX_VAL : ℚ) (fuel idx : ℕ)
    (expo : ℤ) (value : ℚ) :
    calcLoop MANTISSA MAX_VAL fuel idx expo value = [] ∨
      ∃ t, calcLoop MANTISSA MAX_VAL fuel idx expo value = value :: t := by
  cases fuel with
  | zero => exact Or.inl rfl
  | succ fuel =>
    by_cases h : value ≤ MAX_VAL
    · refine Or.inr ⟨calcLoop MANTISSA MAX_VAL fuel ((idx + 1) % MANTISSA.length)
        (if (idx + 1) % MANTISSA.length = 0 then expo + 1 else expo)
        ((MANTISSA.getD ((idx + 1) % MANTISSA.length) 0 : ℚ) * (10 : ℚ) ^
          (if (idx + 1) % MANTISSA.length = 0 then expo + 1 else expo)), ?_⟩
      simp only [calcLoop, if_pos h]
    · exact Or.inl (by simp only [calcLoop, if_neg h])

/-- The generator loop emits a strictly ascending sequence, provided the
mantissas are strictly sorted decimal digits and the running value sits in
the window `[mantissa*10^expo, (mantissa+1)*10^expo)` of its current
mantissa index. -/
theorem calcLoop_chain (MANTISSA : List ℕ) (MAX_VAL : ℚ)
    (h19 : ∀ m ∈ MANTISSA, 1 ≤ m ∧ m ≤ 9) (hsort : MANTISSA.Pairwise (· < ·)) :
    ∀ fuel idx expo value, idx < MANTISSA.length →
      (MANTISSA.getD idx 0 : ℚ) * (10 : ℚ) ^ expo ≤ value →
      value < ((MANTISSA.getD idx 0 : ℚ) + 1) * (10 : ℚ) ^ expo →
      List.Chain' (· < ·) (calcLoop MANTISSA MAX_VAL fuel idx expo value) := by
  intro fuel
  induction fuel with
  | zero =>
    intro idx expo value _ _ _
    simp [calcLoop]
  | succ fuel ih =>
    intro idx expo value hidx hlo hhi
    have hL : 0 < MANTISSA.length := by omega
    have hp : (0 : ℚ) < (10 : ℚ) ^ expo := by positivity
    by_cases h : value ≤ MAX_VAL
    swap
    · simp only [calcLoop, if_neg h]
      simp
    · simp only [calcLoop, if_pos h]
      have hidxlt : (idx + 1) % MANTISSA.length < MANTISSA.length := Nat.mod_lt _ hL
      have hd := h19 _ (getD_mem MANTISSA idx hidx)
      have hstep : value <
          (MANTISSA.getD ((idx + 1) % MANTISSA.length) 0 : ℚ) * (10 : ℚ) ^
            (if (idx + 1) % MANTISSA.length = 0 then expo + 1 else expo) := by
        by_cases hwrap : idx + 1 = MANTISSA.length
        · have hmod : (idx + 1) % MANTISSA.length = 0 := by rw [hwrap, Nat.mod_self]
          rw [hmod, if_pos rfl]
          have h10n : MANTISSA.getD idx 0 + 1 ≤ 10 := by
            have := hd.2
            omega
          have h10 : (MANTISSA.getD idx 0 : ℚ) + 1 ≤ 10 := by exact_mod_cast h10n
          have hone : (1 : ℚ) ≤ (MANTISSA.getD 0 0 : ℚ) := by
            exact_mod_cast (h19 _ (getD_mem MANTISSA 0 hL)).1
          have hz : (10 : ℚ) ^ (expo + 1) = (10 : ℚ) ^ expo * 10 :=
            zpow_add_one₀ (by norm_num) _
          have hpe : (0 : ℚ) < (10 : ℚ) ^ (expo + 1) := by positivity
          calc value < ((MANTISSA.getD idx 0 : ℚ) + 1) * (10 : ℚ) ^ expo := hhi
            _ ≤ 10 * (10 : ℚ) ^ expo := by nlinarith
            _ = (10 : ℚ) ^ (expo + 1) := by rw [hz]; ring
            _ ≤ (MANTISSA.getD 0 0 : ℚ) * (10 : ℚ) ^ (expo + 1) :=
                le_mul_of_one_le_left hpe.le hone
        · have hlt : idx + 1 < MANTISSA.length := by omega
          have hmod : (idx + 1) % MANTISSA.length = idx + 1 := Nat.mod_eq_of_lt hlt
          rw [hmod, if_neg (by omega)]
          have hdd : MANTISSA.getD idx 0 < MANTISSA.getD (idx + 1) 0 := by
            have hpg := List.pairwise_iff_get.mp hsort ⟨idx, hidx⟩ ⟨idx + 1, hlt⟩
              (Fin.mk_lt_mk.mpr (Nat.lt_succ_self idx))
            rwa [List.getD_eq_get MANTISSA 0 hidx, List.getD_eq_get MANTISSA 0 hlt]
          have hddQ : (MANTISSA.getD idx 0 : ℚ) + 1 ≤ (MANTISSA.getD (idx + 1) 0 : ℚ) := by
            exact_mod_cast hdd
          calc value < ((MANTISSA.getD idx 0 : ℚ) + 1) * (10 : ℚ) ^ expo := hhi
            _ ≤ (MANTISSA.getD (idx + 1) 0 : ℚ) * (10 : ℚ) ^ expo :=
                mul_le_mul_of_nonneg_right hddQ hp.le
      rw [List.chain'_cons']
      refine ⟨?_, ?_⟩
      · intro y hy
        rcases calcLoop_head MANTISSA MAX_VAL fuel ((idx + 1) % MANTISSA.length)
            (if (idx + 1) % MANTISSA.length = 0 then expo + 1 else expo)
            ((MANTISSA.getD ((idx + 1) % MANTISSA.length) 0 : ℚ) * (10 : ℚ) ^
              (if (idx + 1) % MANTISSA.length = 0 then expo + 1 else expo))
          with hnil | ⟨t, ht⟩
        · rw [hnil] at hy
          simp at hy
        · rw [ht] at hy
          simp only [List.head?_cons, Option.mem_def, Option.some.injEq] at hy
          exact hy ▸ hstep
      · refine ih _ _ _ hidxlt (le_refl _) ?_
        have hpe : (0 : ℚ) <
            (10 : ℚ) ^ (if (idx + 1) % MANTISSA.length = 0 then expo + 1 else expo) := by
          positivity
        nlinarith

/-- Exact-match short-circuit inside `closestGo`: if the target occurs in
the remaining list, the loop returns it (the only early return is on
`delta == 0`, i.e. at an element equal to the target). -/
theorem closestGo_exact (input_value : ℚ) :
    ∀ l minDelta lowest, input_value ∈ l →
      closestGo input_value l minDelta lowest = input_value := by
  intro l
  induction l with
  | nil => intro minDelta lowest h; simp at h
  | cons v rest ih =>
    intro minDelta lowest h
    simp only [closestGo]
    by_cases hv : v = input_value
    · subst hv
      rw [if_pos (by rw [ratEqb_iff]; simp)]
    · rw [if_neg (by
        rw [ratEqb_iff]
        intro habs
        exact hv (sub_eq_zero.mp (abs_eq_zero.mp habs)))]
      apply ih
      rcases List.mem_cons.mp h with h1 | h2
      · exact absurd h1.symm hv
      · exact h2

/-- The loop result is the carried `lowest_value` or a member of the list. -/
theorem closestGo_mem (input_value : ℚ) :
    ∀ l minDelta lowest, closestGo input_value l minDelta lowest = lowest ∨
      closestGo input_value l minDelta lowest ∈ l := by
  intro l
  induction l with
  | nil => intro _ _; exact Or.inl rfl
  | cons v rest ih =>
    intro minDelta lowest
    simp only [closestGo]
    by_cases hz : ratEqb |v - input_value| 0 = true
    · rw [if_pos hz]
      exact Or.inr (List.mem_cons_self _ _)
    · rw [if_neg hz]
      rcases ih (if |v - input_value| < minDelta then |v - input_value| else minDelta)
          (if |v - input_value| < minDelta then v else lowest) with heq | hmem
      · rw [heq]
        by_cases hlt : |v - input_value| < minDelta
        · rw [if_pos hlt]
          exact Or.inr (List.mem_cons_self _ _)
        · rw [if_neg hlt]
          exact Or.inl rfl
      · exact Or.inr (List.mem_cons_of_mem _ hmem)

/-- When no remaining delta strictly beats the running minimum and no
remaining delta is zero, `closestGo` returns the carried `lowest_value`. -/
theorem closestGo_no_update (input_value : ℚ) :
    ∀ l minDelta lowest,
      (∀ u ∈ l, minDelta ≤ |u - input_value| ∧ ¬ |u - input_value| = 0) →
      closestGo input_value l minDelta lowest = lowest := by
  intro l
  induction l with
  | nil => intro _ _ _; rfl
  | cons v rest ih =>
    intro minDelta lowest hno
    obtain ⟨hle, hnz⟩ := hno v (List.mem_cons_self _ _)
    simp only [closestGo]
    rw [if_neg (by rw [ratEqb_iff]; exact hnz), if_neg (not_lt.mpr hle),
      if_neg (not_lt.mpr hle)]
    exact ih _ _ fun u hu => hno u (List.mem_cons_of_mem _ hu)

/-- Exact-match short-circuit of the full resolver loop. -/
theorem closestLoop_exact (input_value : ℚ) (l : List ℚ) (h : input_value ∈ l) :
    closestLoop input_value l = input_value := by
  cases l with
  | nil => simp at h
  | cons v rest =>
    simp only [closestLoop]
    by_cases hv : v = input_value
    · subst hv
      rw [if_pos (by rw [ratEqb_iff]; simp)]
    · rw [if_neg (by
        rw [ratEqb_iff]
        intro habs
        exact hv (sub_eq_zero.mp (abs_eq_zero.mp habs)))]
      apply closestGo_exact
      rcases List.mem_cons.mp h with h1 | h2
      · exact absurd h1.symm hv
      · exact h2

/-- The resolver loop returns the initial `lowest_value = 0` or a member. -/
theorem closestLoop_mem (input_value : ℚ) (l : List ℚ) :
    closestLoop input_value l = 0 ∨ closestLoop input_value l ∈ l := by
  cases l with
  | nil => exact Or.inl rfl
  | cons v rest =>
    simp only [closestLoop]
    by_cases hz : ratEqb |v - input_value| 0 = true
    · rw [if_pos hz]
      exact Or.inr (List.mem_cons_self _ _)
    · rw [if_neg hz]
      rcases closestGo_mem input_value rest |v - input_value| 0 with heq | hmem
      · exact Or.inl heq
      · exact Or.inr (List.mem_cons_of_mem _ hmem)

/-- Resolving target `0` against an ascending positive list returns `0`:
the first delta is already minimal, the strict `<` update never fires, and
the initial `lowest_value = 0` falls through. -/
theorem closestLoop_zero (l : List ℚ) (hchain : List.Chain' (· < ·) l)
    (hpos : ∀ x ∈ l, 0 < x) :
    closestLoop 0 l = 0 := by
  cases l with
  | nil => rfl
  | cons v rest =>
    have hv : 0 < v := hpos v (List.mem_cons_self _ _)
    simp only [closestLoop]
    rw [if_neg (by
      rw [ratEqb_iff]
      intro habs
      have : v - 0 = 0 := abs_eq_zero.mp habs
      linarith)]
    apply closestGo_no_update
    intro u hu
    have hu0 : 0 < u := hpos u (List.mem_cons_of_mem _ hu)
    have hvu : v < u := by
      have hpw : List.Pairwise (· < ·) (v :: rest) :=
        (List.chain'_iff_pairwise).mp hchain
      exact (List.pairwise_cons.mp hpw).1 u hu
    constructor
    · rw [sub_zero, sub_zero, abs_of_pos hv, abs_of_pos hu0]
      exact hvu.le
    · rw [sub_zero, abs_of_pos hu0]
      linarith

/-- Invariant of Python's `min(vals, key=...)` fold: either the accumulator
survives with a minimal key, or the result is a later element whose key
strictly beats the accumulator and every element before it, and weakly
beats every element after it. -/
theorem foldlMin_spec (target : ℚ) :
    ∀ (l : List ℚ) (acc : ℚ),
      (l.foldl (fun a x => if |x - target| < |a - target| then x else a) acc = acc ∧
        ∀ v ∈ l, |acc - target| ≤ |v - target|) ∨
      (∃ l1 r l2, l = l1 ++ r :: l2 ∧
        l.foldl (fun a x => if |x - target| < |a - target| then x else a) acc = r ∧
        |r - target| < |acc - target| ∧
        (∀ u ∈ l1, |r - target| < |u - target|) ∧
        (∀ u ∈ l2, |r - target| ≤ |u - target|)) := by
  intro l
  induction l with
  | nil => intro acc; exact Or.inl ⟨rfl, by simp⟩
  | cons x rest ih =>
    intro acc
    by_cases hlt : |x - target| < |acc - target|
    · simp only [List.foldl_cons, if_pos hlt]
      rcases ih x with ⟨heq, hmin⟩ | ⟨l1, r, l2, hsplit, heq, hlt2, hbefore, hafter⟩
      · exact Or.inr ⟨[], x, rest, by simp, heq, hlt, by simp, hmin⟩
      · refine Or.inr ⟨x :: l1, r, l2, by rw [hsplit, List.cons_append], heq,
          lt_trans hlt2 hlt, ?_, hafter⟩
        intro u hu
        rcases List.mem_cons.mp hu with rfl | hu'
        · exact hlt2
        · exact hbefore u hu'
    · simp only [List.foldl_cons, if_neg hlt]
      push_neg at hlt
      rcases ih acc with ⟨heq, hmin⟩ | ⟨l1, r, l2, hsplit, heq, hlt2, hbefore, hafter⟩
      · refine Or.inl ⟨heq, ?_⟩
        intro v hv
        rcases List.mem_cons.mp hv with rfl | hv'
        · exact hlt
        · exact hmin v hv'
      · refine Or.inr ⟨x :: l1, r, l2, by rw [hsplit, List.cons_append], heq, hlt2, ?_,
          hafter⟩
        intro u hu
        rcases List.mem_cons.mp hu with rfl | hu'
        · exact lt_of_lt_of_le hlt2 hlt
        · exact hbefore u hu'

/-- Index-wise description of the decoding loop, for an arbitrary starting
index. -/
theorem decodeGo_spec (sv od st : ℚ) :
    ∀ (raw : List ℤ) (start : ℕ),
      (decodeGo sv od st start raw).1.length = raw.length ∧
      (decodeGo sv od st start raw).2.length = raw.length ∧
      (∀ i, (decodeGo sv od st start raw).1.get? i =
          (raw.get? i).map (fun _ => st * ((start + i : ℕ) : ℚ))) ∧
      (∀ i, (decodeGo sv od st start raw).2.get? i =
          (raw.get? i).map (fun c => ((c : ℚ) / 6400 - od) * sv)) := by
  intro raw
  induction raw with
  | nil =>
    intro start
    refine ⟨rfl, rfl, ?_, ?_⟩ <;> intro i <;> simp [decodeGo]
  | cons c rest ih =>
    intro start
    obtain ⟨ih1, ih2, ih3, ih4⟩ := ih (start + 1)
    refine ⟨?_, ?_, ?_, ?_⟩
    · simp [decodeGo, ih1]
    · simp [decodeGo, ih2]
    · intro i
      cases i with
      | zero => simp [decodeGo]
      | succ i =>
        simp only [decodeGo, List.get?_cons_succ]
        rw [show start + (i + 1) = start + 1 + i from by omega]
        exact ih3 i
    · intro i
      cases i with
      | zero => simp [decodeGo]
      | succ i =>
        simp only [decodeGo, List.get?_cons_succ]
        exact ih4 i

/-- The loop emits at least its first value when fuel remains and the
guard holds. -/
theorem calcLoop_ne_nil (MANTISSA : List ℕ) (MAX_VAL : ℚ) (fuel idx : ℕ) (expo : ℤ)
    (value : ℚ) (hf : 0 < fuel) (h : value ≤ MAX_VAL) :
    calcLoop MANTISSA MAX_VAL fuel idx expo value ≠ [] := by
  cases fuel with
  | zero => exact (Nat.lt_irrefl 0 hf).elim
  | succ fuel =>
    simp only [calcLoop, if_pos h]
    simp

/-- Invariants of every successfully generated step sequence: strictly
ascending, positive, bounded by `MAX`, headed by `MIN` (when the range is
nonempty), and each later element decomposes as `mantissa * 10^exponent`. -/
theorem calc_valid_inputs_inv (MIN MAX : ℚ) (MANTISSA : List ℕ) (l : List ℚ)
    (hmin : 0 < MIN)
    (h19 : ∀ m ∈ MANTISSA, 1 ≤ m ∧ m ≤ 9)
    (hsort : MANTISSA.Pairwise (· < ·))
    (hcalc : calc_valid_inputs MIN MAX MANTISSA = some l) :
    List.Chain' (· < ·) l ∧ (∀ x ∈ l, 0 < x) ∧ (∀ x ∈ l, x ≤ MAX) ∧
      (MIN ≤ MAX → l.head? = some MIN) ∧
      (∀ x ∈ l.tail, ∃ m ∈ MANTISSA, ∃ e : ℤ, x = (m : ℚ) * (10 : ℚ) ^ e) := by
  simp only [calc_valid_inputs] at hcalc
  rw [if_neg (not_lt.mpr hmin.le)] at hcalc
  by_cases hdig : sciDigit MIN ∈ MANTISSA
  swap
  · rw [if_neg hdig] at hcalc
    exact absurd hcalc (by simp)
  · rw [if_pos hdig] at hcalc
    have hl := Option.some.inj hcalc
    subst hl
    have hidx : List.indexOf (sciDigit MIN) MANTISSA < MANTISSA.length :=
      List.indexOf_lt_length.mpr hdig
    have hL : 0 < MANTISSA.length := by omega
    have hget : MANTISSA.getD (List.indexOf (sciDigit MIN) MANTISSA) 0 = sciDigit MIN := by
      rw [List.getD_eq_get MANTISSA 0 hidx]
      exact List.indexOf_get hidx
    obtain ⟨hd1, hd9, hdlo, hdhi⟩ := sciDigit_spec MIN hmin
    have hlo : (MANTISSA.getD (List.indexOf (sciDigit MIN) MANTISSA) 0 : ℚ) *
        (10 : ℚ) ^ sciExp MIN ≤ MIN := by
      rw [hget]
      exact hdlo
    have hhi : MIN < ((MANTISSA.getD (List.indexOf (sciDigit MIN) MANTISSA) 0 : ℚ) + 1) *
        (10 : ℚ) ^ sciExp MIN := by
      rw [hget]
      exact hdhi
    have hchain := calcLoop_chain MANTISSA MAX h19 hsort calcFuel _ _ _ hidx hlo hhi
    refine ⟨hchain, ?_, ?_, ?_, ?_⟩
    · exact fun x hx => calcLoop_pos MANTISSA MAX hL (fun m hm => (h19 m hm).1)
        calcFuel _ _ _ hmin x hx
    · exact fun x hx => calcLoop_le_max MANTISSA MAX calcFuel _ _ _ x hx
    · intro hminmax
      rcases calcLoop_head MANTISSA MAX calcFuel (List.indexOf (sciDigit MIN) MANTISSA)
          (sciExp MIN) MIN with hnil | ⟨t, ht⟩
      · exact absurd hnil
          (calcLoop_ne_nil MANTISSA MAX calcFuel _ _ _ (by norm_num [calcFuel]) hminmax)
      · rw [ht]
        rfl
    · intro x hx
      rcases calcLoop_head MANTISSA MAX calcFuel (List.indexOf (sciDigit MIN) MANTISSA)
          (sciExp MIN) MIN with hnil | ⟨t, ht⟩
      · rw [hnil] at hx
        simp at hx
      · rw [ht] at hx hchain
        have hxt : x ∈ t := by simpa using hx
        have hgt : MIN < x := by
          have hpw := (List.chain'_iff_pairwise).mp hchain
          exact (List.pairwise_cons.mp hpw).1 x hxt
        have hdec := calcLoop_decomp MANTISSA MAX hL calcFuel _ _ _ x
          (by rw [ht]; exact List.mem_cons_of_mem _ hxt)
        rcases hdec with rfl | h
        · exact absurd hgt (lt_irrefl _)
        · exact h

/-- C5: `generate(2e-3, 10, (1,2,5))` returns exactly the twelve-element
sequence `[0.002, 0.005, 0.01, 0.02, 0.05, 0.1, 0.2, 0.5, 1.0, 2.0, 5.0,
10.0]`; the loop guard `value <= MAX_VAL` treats the bound inclusively, so
`10.0` (equal to max) is the last element. -/
theorem claim_C5_generate_example :
    calc_valid_inputs (2 / 1000) 10 [1, 2, 5] =
      some [2 / 1000, 5 / 1000, 1 / 100, 2 / 100, 5 / 100,
            1 / 10, 2 / 10, 5 / 10, 1, 2, 5, 10] := by
  with_unfolding_all rfl

/-- C6: `generate` fails synchronously (Python `ValueError`, modelled as
`none`, producing no sequence) whenever `min <= 0` — the mantissa list
holds nonzero digits, and a negative min makes `int('-')` fail outright —
and whenever `min`'s leading significant digit is not in the mantissa
list. -/
theorem claim_C6_generate_rejects (MIN_VAL MAX_VAL : ℚ) (MANTISSA : List ℕ)
    (h0 : 0 ∉ MANTISSA)
    (h : MIN_VAL ≤ 0 ∨ sciDigit MIN_VAL ∉ MANTISSA) :
    calc_valid_inputs MIN_VAL MAX_VAL MANTISSA = none := by
  by_cases hneg : MIN_VAL < 0
  · simp only [calc_valid_inputs]
    rw [if_pos hneg]
  · push_neg at hneg
    have hdig : sciDigit MIN_VAL ∉ MANTISSA := by
      rcases h with h1 | h2
      · have h00 : MIN_VAL = 0 := le_antisymm h1 hneg
        subst h00
        have hz : sciDigit 0 = 0 := by with_unfolding_all rfl
        rw [hz]
        exact h0
      · exact h2
    simp only [calc_valid_inputs]
    rw [if_neg (not_lt.mpr hneg), if_neg hdig]

/-- Witness for C6 at `min = 0`, `mantissas = (1,2,5)`. -/
theorem claim_C6_witness : calc_valid_inputs 0 10 [1, 2, 5] = none :=
  claim_C6_generate_rejects 0 10 [1, 2, 5] (by decide) (Or.inl le_rfl)

/-- C2 counterexample: `min = 1.5` satisfies every precondition of the
claim (positive, below max, leading digit `1 ∈ (1,2,5)`, mantissas sorted),
yet the first element of the generated sequence is `1.5` itself, which is
not of the form `mantissa * 10^exponent` for any mantissa in the list —
the loop appends the raw `MIN_VAL` before rebuilding values. -/
theorem claim_C2_counterexample :
    calc_valid_inputs (3 / 2) 10 [1, 2, 5] = some [3 / 2, 2, 5, 10] ∧
    (0 : ℚ) < 3 / 2 ∧ (3 : ℚ) / 2 ≤ 10 ∧ sciDigit (3 / 2) ∈ [1, 2, 5] ∧
    ¬ ∃ m ∈ ([1, 2, 5] : List ℕ), ∃ e : ℤ, (3 : ℚ) / 2 = (m : ℚ) * (10 : ℚ) ^ e := by
  refine ⟨by with_unfolding_all rfl, by norm_num, by norm_num, ?_, ?_⟩
  · have hd : sciDigit (3 / 2) = 1 := by with_unfolding_all rfl
    rw [hd]
    decide
  · rintro ⟨m, hm, e, he⟩
    have hm9 : m ≤ 9 := by fin_cases hm <;> norm_num
    have hm1 : 1 ≤ m := by fin_cases hm <;> norm_num
    rcases le_or_lt 0 e with he0 | heneg
    · obtain ⟨n, rfl⟩ := Int.eq_ofNat_of_zero_le he0
      rw [zpow_natCast] at he
      have h3 : (3 : ℚ) = 2 * ((m : ℚ) * 10 ^ n) := by linarith
      have h3n : (3 : ℕ) = 2 * (m * 10 ^ n) := by exact_mod_cast h3
      omega
    · have hp : (0 : ℚ) < (10 : ℚ) ^ e := by positivity
      have h110 : (10 : ℚ) ^ e ≤ (10 : ℚ) ^ (-1 : ℤ) :=
        zpow_le_zpow_right₀ (by norm_num) (by omega)
      have hinv : (10 : ℚ) ^ (-1 : ℤ) = 1 / 10 := by norm_num
      have hm9Q : (m : ℚ) ≤ 9 := by exact_mod_cast hm9
      have hb : (m : ℚ) * (10 : ℚ) ^ e ≤ 9 * (1 / 10) := by
        calc (m : ℚ) * (10 : ℚ) ^ e ≤ 9 * (10 : ℚ) ^ e :=
              mul_le_mul_of_nonneg_right hm9Q hp.le
          _ ≤ 9 * (1 / 10) := by
              rw [← hinv]
              exact mul_le_mul_of_nonneg_left h110 (by norm_num)
      linarith

/-- C2 amended: under the claim preconditions `generate` returns a
strictly ascending sequence whose first element equals `min`, all of whose
elements are `<= max`, and each of whose elements **after the first** (the
first is the raw `min`) equals `mantissa * 10^exponent` for some mantissa
in the list. -/
theorem claim_C2_generate_spec (MIN_VAL MAX_VAL : ℚ) (MANTISSA : List ℕ)
    (hmin : 0 < MIN_VAL) (hminmax : MIN_VAL ≤ MAX_VAL)
    (h19 : ∀ m ∈ MANTISSA, 1 ≤ m ∧ m ≤ 9)
    (hsort : MANTISSA.Pairwise (· < ·))
    (hdig : sciDigit MIN_VAL ∈ MANTISSA) :
    ∃ l, calc_valid_inputs MIN_VAL MAX_VAL MANTISSA = some l ∧
      l.head? = some MIN_VAL ∧
      List.Chain' (· < ·) l ∧
      (∀ x ∈ l, x ≤ MAX_VAL) ∧
      (∀ x ∈ l.tail, ∃ m ∈ MANTISSA, ∃ e : ℤ, x = (m : ℚ) * (10 : ℚ) ^ e) := by
  have hcalc : calc_valid_inputs MIN_VAL MAX_VAL MANTISSA =
      some (calcLoop MANTISSA MAX_VAL calcFuel
        (List.indexOf (sciDigit MIN_VAL) MANTISSA) (sciExp MIN_VAL) MIN_VAL) := by
    simp only [calc_valid_inputs]
    rw [if_neg (not_lt.mpr hmin.le), if_pos hdig]
  obtain ⟨hchain, _, hle, hhead, htail⟩ :=
    calc_valid_inputs_inv MIN_VAL MAX_VAL MANTISSA _ hmin h19 hsort hcalc
  exact ⟨_, hcalc, hhead hminmax, hchain, hle, htail⟩

/-- Witness for C2 (amended) at `(2e-3, 10, (1,2,5))`. -/
theorem claim_C2_witness :
    ∃ l, calc_valid_inputs (2 / 1000) 10 [1, 2, 5] = some l ∧
      l.head? = some (2 / 1000) ∧
      List.Chain' (· < ·) l ∧
      (∀ x ∈ l, x ≤ 10) ∧
      (∀ x ∈ l.tail, ∃ m ∈ ([1, 2, 5] : List ℕ), ∃ e : ℤ, x = (m : ℚ) * (10 : ℚ) ^ e) :=
  claim_C2_generate_spec (2 / 1000) 10 [1, 2, 5] (by norm_num) (by norm_num)
    (by decide) (by decide)
    (by
      have hd : sciDigit (2 / 1000) = 2 := by with_unfolding_all rfl
      rw [hd]
      decide)

/-- C1 failing input: resolving `0.003` over `generate(2e-3, 10, (1,2,5))`.
The nearest sequence member is the first element `0.002`, but because
`lowest_value` is initialized to `0` and the first iteration sets
`min_delta` to the first delta before the strict `<` update test, the
first element is never recorded; the function returns `0`, which is not a
member of the sequence and lies farther from the target than `0.002`. -/
theorem claim_C1_first_element_bug :
    get_closest_value (3 / 1000) (2 / 1000) 10 [1, 2, 5] = some 0 ∧
    calc_valid_inputs (2 / 1000) 10 [1, 2, 5] =
      some [2 / 1000, 5 / 1000, 1 / 100, 2 / 100, 5 / 100,
            1 / 10, 2 / 10, 5 / 10, 1, 2, 5, 10] ∧
    (0 : ℚ) ∉ [2 / 1000, 5 / 1000, 1 / 100, 2 / 100, 5 / 100,
      1 / 10, 2 / 10, 5 / 10, (1 : ℚ), 2, 5, 10] ∧
    |(2 : ℚ) / 1000 - 3 / 1000| < |(0 : ℚ) - 3 / 1000| := by
  refine ⟨by with_unfolding_all rfl, by with_unfolding_all rfl, ?_, by
    rw [abs_of_neg (by norm_num), abs_of_neg (by norm_num)]
    norm_num⟩
  intro hmem
  simp only [List.mem_cons, List.not_mem_nil, or_false] at hmem
  rcases hmem with h | h | h | h | h | h | h | h | h | h | h | h <;> norm_num at h

/-- C3 failing input (the function docstring example): `target = 10.1`,
`validated = 10`, `vals_valid = [1, 2, 5, 10, 20, 50]`.  Here
`target > validated` and `target <= max(vals_valid)`, so the claim (and
the docstring, which promises `20`) requires the next larger element; the
code's next-larger branch is dead (`if/elif` already exhausts both
orderings) and the function falls off the end, returning `None`. -/
theorem claim_C3_ceiling_falls_through :
    get_val_ceil (101 / 10) 10 [1, 2, 5, 10, 20, 50] = none ∧
    ¬ (101 : ℚ) / 10 ≤ 10 ∧ (101 : ℚ) / 10 ≤ 50 :=
  ⟨by with_unfolding_all rfl, by norm_num, by norm_num⟩

/-- C4 counterexample: with `MIN = 10 > MAX = 2` the generated sequence is
empty (the loop guard fails immediately), and `get_closest_value` does not
fail — it silently returns the initial `lowest_value = 0`. -/
theorem claim_C4_counterexample :
    calc_valid_inputs 10 2 [1, 2, 5] = some [] ∧
    get_closest_value 1 10 2 [1, 2, 5] = some 0 :=
  ⟨by with_unfolding_all rfl, by with_unfolding_all rfl⟩

/-- C4 amended: `validate_input` on an empty sequence fails (`min([])`
raises `ValueError`, modelled `none`), but the resolver loop of
`get_closest_value` returns `0` — no error — whenever the generated
sequence is empty. -/
theorem claim_C4_empty_resolve (target MIN MAX : ℚ) (MANTISSA : List ℕ) :
    validate_input target [] = none ∧
    (calc_valid_inputs MIN MAX MANTISSA = some [] →
      get_closest_value target MIN MAX MANTISSA = some 0) := by
  refine ⟨rfl, fun h => ?_⟩
  simp [get_closest_value, h, closestLoop]

/-- Witness for C4 (amended) at the counterexample input. -/
theorem claim_C4_witness :
    validate_input 1 [] = none ∧ get_closest_value 1 10 2 [1, 2, 5] = some 0 :=
  ⟨(claim_C4_empty_resolve 1 10 2 [1, 2, 5]).1,
   (claim_C4_empty_resolve 1 10 2 [1, 2, 5]).2 (by with_unfolding_all rfl)⟩

/-- C7: `decode` maps the sample with code `c` at index `i` to voltage
`(c / 6400 - offsetDivisions) * scale` and time `samplePeriod * i`; both
output sequences have the same length as the input and preserve its order
(the `i`-th output comes from the `i`-th input); concretely,
`decode([6400], 1.0, 0.0, 1.0) = ([0.0], [1.0])`. -/
theorem claim_C7_decode_spec (raw : List ℤ) (scale_voltage offset_divisons scale_time : ℚ) :
    (decode raw scale_voltage offset_divisons scale_time).1.length = raw.length ∧
    (decode raw scale_voltage offset_divisons scale_time).2.length = raw.length ∧
    (∀ i, (decode raw scale_voltage offset_divisons scale_time).1.get? i =
      (raw.get? i).map (fun _ => scale_time * (i : ℚ))) ∧
    (∀ i, (decode raw scale_voltage offset_divisons scale_time).2.get? i =
      (raw.get? i).map (fun c => ((c : ℚ) / 6400 - offset_divisons) * scale_voltage)) ∧
    decode [6400] 1 0 1 = ([0], [1]) := by
  obtain ⟨h1, h2, h3, h4⟩ := decodeGo_spec scale_voltage offset_divisons scale_time raw 0
  refine ⟨h1, h2, ?_, h4, by with_unfolding_all rfl⟩
  intro i
  have h := h3 i
  simpa using h

/-- C9: `resolve` is idempotent over any generated sequence — whatever
`get_closest_value` returns, resolving that result again returns it
unchanged — and an exact match (a target that is a member of the sequence)
is returned itself via the `delta == 0` short-circuit.  (Idempotence holds
even on the buggy `lowest_value = 0` path, because resolving `0` against
an ascending positive sequence again returns `0`.) -/
theorem claim_C9_resolve_idempotent (MIN MAX : ℚ) (MANTISSA : List ℕ)
    (hmin : 0 < MIN)
    (h19 : ∀ m ∈ MANTISSA, 1 ≤ m ∧ m ≤ 9)
    (hsort : MANTISSA.Pairwise (· < ·)) :
    (∀ x r, get_closest_value x MIN MAX MANTISSA = some r →
      get_closest_value r MIN MAX MANTISSA = some r) ∧
    (∀ x l, calc_valid_inputs MIN MAX MANTISSA = some l → x ∈ l →
      get_closest_value x MIN MAX MANTISSA = some x) := by
  constructor
  · intro x r hr
    rw [get_closest_value] at hr
    rcases Option.map_eq_some'.mp hr with ⟨l, hcalc, hclosest⟩
    obtain ⟨hchain, hpos, _, _, _⟩ :=
      calc_valid_inputs_inv MIN MAX MANTISSA l hmin h19 hsort hcalc
    rw [get_closest_value, hcalc, Option.map_some']
    rcases closestLoop_mem x l with h0 | hmem
    · rw [h0] at hclosest
      rw [← hclosest, closestLoop_zero l hchain hpos]
    · rw [hclosest] at hmem
      rw [closestLoop_exact r l hmem]
  · intro x l hcalc hx
    rw [get_closest_value, hcalc, Option.map_some', closestLoop_exact x l hx]

/-- Witness for C9: the buggy path (`resolve(0.003) = 0`) resolves to a
fixed point, exercising the first conjunct at a concrete input. -/
theorem claim_C9_witness :
    get_closest_value (3 / 1000) (2 / 1000) 10 [1, 2, 5] = some 0 ∧
    get_closest_value 0 (2 / 1000) 10 [1, 2, 5] = some 0 :=
  ⟨by with_unfolding_all rfl,
   (claim_C9_resolve_idempotent (2 / 1000) 10 [1, 2, 5] (by norm_num) (by decide)
      (by decide)).1 (3 / 1000) 0 (by with_unfolding_all rfl)⟩

/-- C10: `validate_input` returns an element of the list minimizing the
absolute difference to the target, and among ties the earliest occurrence
in the list (Python `min` replaces the running minimum only on a strictly
smaller key). -/
theorem claim_C10_validate_input_min (target : ℚ) (l : List ℚ) (r : ℚ)
    (h : validate_input target l = some r) :
    r ∈ l ∧ (∀ v ∈ l, |r - target| ≤ |v - target|) ∧
      ∃ l1 l2, l = l1 ++ r :: l2 ∧ ∀ u ∈ l1, |r - target| < |u - target| := by
  cases l with
  | nil => simp [validate_input] at h
  | cons v rest =>
    simp only [validate_input, Option.some.injEq] at h
    rcases foldlMin_spec target rest v with ⟨heq, hmin⟩ |
        ⟨l1, rr, l2, hsplit, heq, hlt, hbefore, hafter⟩
    · rw [heq] at h
      subst h
      refine ⟨List.mem_cons_self _ _, ?_, [], rest, rfl, by simp⟩
      intro u hu
      rcases List.mem_cons.mp hu with rfl | hu'
      · exact le_refl _
      · exact hmin u hu'
    · rw [heq] at h
      subst h
      have hrmem : rr ∈ v :: rest := by
        apply List.mem_cons_of_mem
        rw [hsplit]
        exact List.mem_append_right _ (List.mem_cons_self _ _)
      refine ⟨hrmem, ?_, v :: l1, l2, by rw [hsplit, List.cons_append], ?_⟩
      · intro u hu
        rcases List.mem_cons.mp hu with rfl | hu'
        · exact hlt.le
        · rw [hsplit] at hu'
          rcases List.mem_append.mp hu' with h1 | h2
          · exact (hbefore u h1).le
          · rcases List.mem_cons.mp h2 with rfl | h3
            · exact le_refl _
            · exact hafter u h3
      · intro u hu
        rcases List.mem_cons.mp hu with rfl | hu'
        · exact hlt
        · exact hbefore u hu'

/-- Witness for C10 at the docstring example `validate_input(10.1,
[1,2,5,10,20]) = 10`. -/
theorem claim_C10_witness :
    (10 : ℚ) ∈ ([1, 2, 5, 10, 20] : List ℚ) ∧
    (∀ v ∈ ([1, 2, 5, 10, 20] : List ℚ), |(10 : ℚ) - 101 / 10| ≤ |v - 101 / 10|) ∧
    ∃ l1 l2, ([1, 2, 5, 10, 20] : List ℚ) = l1 ++ 10 :: l2 ∧
      ∀ u ∈ l1, |(10 : ℚ) - 101 / 10| < |u - 101 / 10| :=
  claim_C10_validate_input_min (101 / 10) [1, 2, 5, 10, 20] 10 (by with_unfolding_all rfl)

/-- C8: for every resolved value in the fixed padding set `time_dec` the
rendered numeral has exactly one decimal digit with the trailing zero kept
(`render(1.0, "s") = "1.0s"`); other values render with default precision
stripping trailing zeros; and in every case the emitted token contains no
space (the `split(" ")`/`join` step deletes every space between numeral
and prefixed unit).  The quantiphy formatting step itself is modelled from
the spec (§4.3), as its code is not part of this repository. -/
theorem claim_C8_render_spec :
    renderToken 1 "s" = "1.0s" ∧
    (∀ v ∈ time_dec, ∃ m ∈ ([1, 2, 5] : List ℕ), ∃ p : String,
      renderToken v "s" = Nat.repr m ++ "." ++ "0" ++ p ++ "s") ∧
    (∀ (v : ℚ) (u : String), ' ' ∉ (renderToken v u).data) := by
  refine ⟨by with_unfolding_all rfl, ?_, ?_⟩
  · intro v hv
    simp only [time_dec] at hv
    fin_cases hv
    · exact ⟨1, by decide, "n", by with_unfolding_all rfl⟩
    · exact ⟨2, by decide, "n", by with_unfolding_all rfl⟩
    · exact ⟨5, by decide, "n", by with_unfolding_all rfl⟩
    · exact ⟨1, by decide, "u", by with_unfolding_all rfl⟩
    · exact ⟨2, by decide, "u", by with_unfolding_all rfl⟩
    · exact ⟨5, by decide, "u", by with_unfolding_all rfl⟩
    · exact ⟨1, by decide, "m", by with_unfolding_all rfl⟩
    · exact ⟨2, by decide, "m", by with_unfolding_all rfl⟩
    · exact ⟨5, by decide, "m", by with_unfolding_all rfl⟩
    · exact ⟨1, by decide, "", by with_unfolding_all rfl⟩
    · exact ⟨2, by decide, "", by with_unfolding_all rfl⟩
    · exact ⟨5, by decide, "", by with_unfolding_all rfl⟩
  · intro v u hmem
    simp only [renderToken, removeSpaces] at hmem
    have h := List.mem_filter.mp hmem
    simp at h

/-- Witness for C8 at the padding-set member `1`, rendered `"1.0s"`. -/
theorem claim_C8_witness :
    ∃ m ∈ ([1, 2, 5] : List ℕ), ∃ p : String,
      renderToken 1 "s" = Nat.repr m ++ "." ++ "0" ++ p ++ "s" :=
  claim_C8_render_spec.2.1 1 (by simp only [time_dec, List.mem_cons]; norm_num)

/-- Witness for C7 at the concrete sample block `[6400]` with unit scale:
one full division of code maps to one scale unit of voltage at time 0. -/
theorem claim_C7_witness :
    decode [6400] 1 0 1 = ([0], [1]) :=
  (claim_C7_decode_spec [6400] 1 0 1).2.2.2.2

